import Mathlib

/-!
Verification of the fan-out/fan-in feasibility orchestrator
(`src/backend/app/agents/feasibility_agent.py`).

Scores, weights and timestamps are modelled as exact rationals (`ℚ`);
Python `float` arithmetic in the source is ordinary arithmetic on these
values.  The orchestrator's global dictionary `PENDING` is modelled as an
association list with Python-dict semantics: lookup and update touch the
first entry with the given key, deletion removes it.  Message handlers
become pure functions from a tracker state and a message to a new tracker
state plus the list of messages the handler sends.
-/

set_option maxRecDepth 4000

namespace Feasibility

/-- The five scoring dimensions (`PARAMS` in the source). -/
inductive Param where
  | cost
  | ethics
  | market
  | tech
  | timing
deriving DecidableEq, Repr, Fintype

/-- `PARAMS = ["cost", "ethics", "market", "tech", "timing"]`. -/
def PARAMS : List Param := [.cost, .ethics, .market, .tech, .timing]

/-- `DEFAULT_WEIGHTS = {"cost": 0.2, "ethics": 0.2, "market": 0.25, "tech": 0.2, "timing": 0.15}`. -/
def DEFAULT_WEIGHTS : Param → ℚ
  | .cost => 1/5
  | .ethics => 1/5
  | .market => 1/4
  | .tech => 1/5
  | .timing => 3/20

/-- `TIMEOUT_S` with its default value `10.0` (env `AGENT_TIMEOUT_S` unset). -/
def TIMEOUT_S : ℚ := 10

/-- `FEASIBILITY_THRESHOLD` with its default value `75.0` (env unset). -/
def FEASIBILITY_THRESHOLD : ℚ := 75

/-- The keyword blocklist `IMPOSSIBLE_KWS`. -/
def IMPOSSIBLE_KWS : List String :=
  ["teleportation", "warp", "ftl", "faster-than-light", "time travel", "antigravity",
   "room-temperature superconductor", "ambient-pressure superconductor",
   "cold fusion", "perpetual motion", "instant terraforming", "space elevator"]

/-- Python `.strip()`: drop leading and trailing whitespace (structural
list-of-characters implementation, so that concrete instances evaluate). -/
def pyStrip (s : String) : String :=
  ⟨((s.toList.dropWhile Char.isWhitespace).reverse.dropWhile Char.isWhitespace).reverse⟩

/-- Substring test on character lists: Python `k in t`. -/
def strContains (t k : List Char) : Bool :=
  decide (k <:+: t)

/-- `contains_impossible`: case-insensitive scan of the text for any
blocklisted keyword (`.lower()` is a per-character map). -/
def contains_impossible (text : String) : Bool :=
  IMPOSSIBLE_KWS.any (fun k => strContains (text.toList.map Char.toLower) k.toList)

/-- Number of whitespace-separated words in a character list, as Python
`len(text.split())` counts them: maximal non-whitespace runs.  The flag
records whether the previous character was inside a word. -/
def countWords : List Char → Bool → ℕ
  | [], _ => 0
  | c :: rest, inWord =>
    if Char.isWhitespace c then countWords rest false
    else (if inWord then 0 else 1) + countWords rest true

/-- Word count used by `quick_score`: `max(len((text or "").split()), 1)`. -/
def word_count (text : String) : ℕ :=
  max (countWords text.toList false) 1

/-- `quick_score`, parameterised by `sqrt_words`, the value of
`n ** 0.5` where `n = word_count text`: the square root of the word count
has no exact rational representation in general, so the caller supplies it
(theorems about concrete inputs use perfect-square word counts, where the
Python float computation is also exact).
`base = min(100, 20 + n**0.5 * 10); return max(0, min(100, base + bias))`. -/
def quick_score (sqrt_words : ℚ) (bias : ℚ) : ℚ :=
  let base := min 100 (20 + sqrt_words * 10)
  max 0 (min 100 (base + bias))

/-- A caller-supplied weights dictionary, restricted to the five relevant
keys: `none` at a key means the key is absent (`w.get(p, 0.0)` reads 0). -/
abbrev WeightDict : Type := Param → Option ℚ

/-- The value `w.get(p, 0.0)` reads from the dictionary. -/
def wget (w : WeightDict) (p : Param) : ℚ :=
  (w p).getD 0

/-- The sum `s = sum(w.values())` over the five dimensions. -/
def wsum (w : WeightDict) : ℚ :=
  (PARAMS.map (wget w)).sum

/-- `normalize_weights`: read the five entries (missing keys as 0); if the
sum is `≤ 0` fall back to `DEFAULT_WEIGHTS`; divide by the sum. -/
def normalize_weights (w : WeightDict) : Param → ℚ :=
  let s := wsum w
  if s ≤ 0 then
    fun p => DEFAULT_WEIGHTS p / (PARAMS.map DEFAULT_WEIGHTS).sum
  else
    fun p => wget w p / s

/-- Message schema `FeasibilityRequest`.  The optional `weights`
dictionary is restricted to the five relevant keys; a Python dict with
only irrelevant keys corresponds to `some (fun _ => none)` (both read 0
for every dimension and hence normalize to the defaults, like the falsy
empty dict does through `msg.weights or DEFAULT_WEIGHTS`). -/
structure FeasibilityRequest where
  title : String
  summary : String
  weights : Option WeightDict := none
  version : ℤ := 1
  corr_id : Option String := none

/-- Message schema `SubscoreRequest`. -/
structure SubscoreRequest where
  request_id : String
  title : String
  summary : String
  parameter : Param
  version : ℤ := 1
deriving DecidableEq, Repr

/-- Message schema `SubscoreResponse`. -/
structure SubscoreResponse where
  request_id : String
  parameter : Param
  score : ℚ
  confidence : ℚ
  rationale : String
  version : ℤ := 1
deriving DecidableEq, Repr

/-- Message schema `FeasibilityAggregate`. -/
structure FeasibilityAggregate where
  request_id : String
  overall : ℚ
  breakdown : List SubscoreResponse
  version : ℤ := 1
  corr_id : Option String := none
deriving DecidableEq, Repr

/-- One value of the `PENDING` tracker:
`{sender, weights, expected, received, created_at, corr_id}`. -/
structure JobState where
  sender : String
  weights : Param → ℚ
  expected : Finset Param
  received : List SubscoreResponse
  created_at : ℚ
  corr_id : Option String

/-- The `PENDING` dictionary, as an association list in insertion order
(Python dicts preserve insertion order; keys are unique in any state the
program reaches, since `rid` is a fresh uuid). -/
abbrev Pending : Type := List (String × JobState)

/-- Dictionary read `PENDING.get(rid)`: first entry with the key. -/
def lookupJob : Pending → String → Option JobState
  | [], _ => none
  | (k, v) :: rest, rid => if k = rid then some v else lookupJob rest rid

/-- Dictionary write `PENDING[rid] = st`: replace the first entry with the
key, or append a new entry. -/
def setJob : Pending → String → JobState → Pending
  | [], rid, st => [(rid, st)]
  | (k, v) :: rest, rid, st =>
      if k = rid then (rid, st) :: rest else (k, v) :: setJob rest rid st

/-- Dictionary delete `del PENDING[rid]`: remove the first entry with the
key. -/
def delJob : Pending → String → Pending
  | [], _ => []
  | (k, v) :: rest, rid => if k = rid then rest else (k, v) :: delJob rest rid

/-- Number of entries carrying a given key (1 for genuine dict states). -/
def ridCount (P : Pending) (rid : String) : ℕ :=
  (P.filter (fun e => e.1 = rid)).length

/-- `sum(r.score * w.get(r.parameter, 0.0) for r in received)`; the job's
weights dictionary always carries all five keys, so `get` never defaults. -/
def weightedSum (w : Param → ℚ) (received : List SubscoreResponse) : ℚ :=
  (received.map (fun r => r.score * w r.parameter)).sum

/-- `sum(w.get(r.parameter, 0.0) for r in recv)` in the timeout sweep. -/
def usedWeight (st : JobState) : ℚ :=
  (st.received.map (fun r => st.weights r.parameter)).sum

/-- The overall score the timeout sweep computes for one expired job:
zero when nothing was received, else the weighted sum divided by
`used or 1.0` (the `or` replaces a zero denominator by `1.0`). -/
def timeoutOverall (st : JobState) : ℚ :=
  if st.received = [] then 0
  else
    let used := usedWeight st
    weightedSum st.weights st.received / (if used = 0 then 1 else used)

/-- The partial aggregate the timeout sweep emits for one expired job. -/
def mkTimeoutAgg (rid : String) (st : JobState) : FeasibilityAggregate :=
  { request_id := rid
    overall := timeoutOverall st
    breakdown := st.received
    version := 1
    corr_id := st.corr_id }

/-- Handler `on_feasibility_request` on the `PENDING` state.  `rid` is the
freshly minted uuid and `now` the value of `time.time()`; the handler
returns the new tracker, the aggregates it sends back to the sender, and
the `SubscoreRequest` fan-out it dispatches to the specialists. -/
def on_feasibility_request (P : Pending) (sender : String) (msg : FeasibilityRequest)
    (rid : String) (now : ℚ) :
    Pending × List FeasibilityAggregate × List SubscoreRequest :=
  let title := pyStrip msg.title
  let summary := pyStrip msg.summary
  if title = "" ∨ summary = "" then
    (P, [{ request_id := "invalid", overall := 0, breakdown := [], version := 1,
           corr_id := msg.corr_id }], [])
  else
    let weights := normalize_weights (msg.weights.getD (fun p => some (DEFAULT_WEIGHTS p)))
    (setJob P rid
      { sender := sender, weights := weights, expected := Finset.univ,
        received := [], created_at := now, corr_id := msg.corr_id },
     [],
     PARAMS.map (fun p =>
       { request_id := rid, title := title, summary := summary,
         parameter := p, version := msg.version }))

/-- Handler `on_subscore`: record the response if its dimension is still
expected; when `expected` empties, emit the aggregate and delete the job.
Python mutates the tracked dict in place; here the updated state is
written back explicitly. -/
def on_subscore (P : Pending) (resp : SubscoreResponse) :
    Pending × List FeasibilityAggregate :=
  match lookupJob P resp.request_id with
  | none => (P, [])
  | some st =>
    let st' :=
      if resp.parameter ∈ st.expected then
        { st with expected := st.expected.erase resp.parameter,
                  received := st.received ++ [resp] }
      else st
    if st'.expected = ∅ then
      (delJob P resp.request_id,
       [{ request_id := resp.request_id,
          overall := weightedSum st'.weights st'.received,
          breakdown := st'.received,
          version := 1,
          corr_id := st'.corr_id }])
    else
      (setJob P resp.request_id st', [])

/-- Handler `timeout_sweeper` at wall-clock `now`: every job older than
`TIMEOUT_S` gets a partial aggregate and is deleted; the iteration is over
a snapshot of the items in insertion order. -/
def timeout_sweeper : Pending → ℚ → Pending × List FeasibilityAggregate
  | [], _ => ([], [])
  | (rid, st) :: rest, now =>
    let tail := timeout_sweeper rest now
    if now - st.created_at > TIMEOUT_S then
      (tail.1, mkTimeoutAgg rid st :: tail.2)
    else
      ((rid, st) :: tail.1, tail.2)

/-- One invocation of an orchestrator handler.  A `request` event carries
the oracle inputs the handler draws from the environment: the sender
address, the minted uuid `rid` and the clock reading `now`; a `sweep`
event carries the clock reading of that interval tick. -/
inductive Event where
  | request (sender : String) (msg : FeasibilityRequest) (rid : String) (now : ℚ)
  | subscore (resp : SubscoreResponse)
  | sweep (now : ℚ)

/-- Effect of one handler invocation on `PENDING`, with the aggregates it
emits. -/
def step (P : Pending) : Event → Pending × List FeasibilityAggregate
  | .request sender msg rid now =>
      let r := on_feasibility_request P sender msg rid now
      (r.1, r.2.1)
  | .subscore resp => on_subscore P resp
  | .sweep now => timeout_sweeper P now

/-- Run a sequence of handler invocations, collecting every emitted
aggregate in order.  On the single-threaded agent loop every execution of
the orchestrator is such a sequence. -/
def run (P : Pending) : List Event → Pending × List FeasibilityAggregate
  | [] => (P, [])
  | e :: es =>
      let r := step P e
      let rest := run r.1 es
      (rest.1, r.2 ++ rest.2)

/-- Number of emitted aggregates addressed to a given job id. -/
def countAggFor (rid : String) (aggs : List FeasibilityAggregate) : ℕ :=
  (aggs.filter (fun a => a.request_id = rid)).length

/-- Number of request events that mint a given job id. -/
def countMints (rid : String) (events : List Event) : ℕ :=
  events.countP (fun e =>
    match e with
    | .request _ _ r _ => r = rid
    | _ => false)

/-- Precondition on one event, used for the range claim: caller-supplied
weights are non-negative and specialist scores lie in `[0, 100]`. -/
def eventOK : Event → Prop
  | .request _ msg _ _ =>
      match msg.weights with
      | none => True
      | some w => ∀ p, 0 ≤ wget w p
  | .subscore resp => 0 ≤ resp.score ∧ resp.score ≤ 100
  | .sweep _ => True

instance (e : Event) : Decidable (eventOK e) := by
  cases e with
  | request s msg r n =>
      cases msg with
      | mk t su w v c =>
        cases w with
        | none => exact isTrue trivial
        | some wd => exact inferInstanceAs (Decidable (∀ p, 0 ≤ wget wd p))
  | subscore resp => exact inferInstanceAs (Decidable (_ ∧ _))
  | sweep n => exact isTrue trivial

/-- Specialist handler `cost_handler` (returns the response it sends, or
`none` when the guard drops the message).  `sqrt_words` stands for
`len(req.summary.split()) ** 0.5` as in `quick_score`. -/
def cost_handler (req : SubscoreRequest) (sqrt_words : ℚ) : Option SubscoreResponse :=
  if req.parameter ≠ Param.cost then none
  else
    let score0 := 100 - quick_score sqrt_words 0
    let score := if contains_impossible req.summary then max 0 (score0 - 40) else score0
    some { request_id := req.request_id, parameter := .cost, score := score,
           confidence := 3/5,
           rationale :=
             if contains_impossible req.summary then
               "Estimated infra & staffing for MVP; penalized for speculative prerequisites"
             else "Estimated infra & staffing for MVP",
           version := 1 }

/-- Specialist handler `tech_handler` in the default configuration
(`USE_GEMINI_TECH` unset, so the Gemini branch is dead code and the
handler is the keyword short-circuit plus the heuristic fallback). -/
def tech_handler (req : SubscoreRequest) (sqrt_words : ℚ) : Option SubscoreResponse :=
  if req.parameter ≠ Param.tech then none
  else if contains_impossible req.summary then
    some { request_id := req.request_id, parameter := .tech, score := 5,
           confidence := 3/5,
           rationale := "Requires speculative physics/undeveloped materials",
           version := 1 }
  else
    some { request_id := req.request_id, parameter := .tech,
           score := quick_score sqrt_words 5,
           confidence := 3/5,
           rationale := "Feasible with existing OSS/APIs",
           version := 1 }

/-- Rounding `float(f"{x:.1f}")` to one decimal place, in exact
arithmetic: nearest multiple of `1/10` (Python's round-half-even on the
underlying binary float agrees except on values whose decimal expansion
ends exactly in half a tenth, which no claim exercises). -/
def round1 (x : ℚ) : ℚ :=
  (round (x * 10) : ℤ) / 10

/-- One entry of the HTTP breakdown list built by the gateway. -/
structure BreakdownEntry where
  parameter : Param
  score : ℚ
  confidence : ℚ
  rationale : String
  version : ℤ
deriving DecidableEq, Repr

/-- The HTTP payload the gateway builds from an aggregate. -/
structure GatewayPayload where
  request_id : String
  version : ℤ
  overall : ℚ
  threshold : ℚ
  passes_threshold : Bool
  breakdown : List BreakdownEntry
deriving DecidableEq, Repr

/-- Gateway handler `on_result`: the pass/fail flag compares the raw
(unrounded) overall against `FEASIBILITY_THRESHOLD`, while the reported
overall and per-dimension scores are rounded to one decimal place. -/
def on_result (msg : FeasibilityAggregate) : GatewayPayload :=
  { request_id := msg.corr_id.getD "unknown"
    version := msg.version
    overall := round1 msg.overall
    threshold := FEASIBILITY_THRESHOLD
    passes_threshold := decide (FEASIBILITY_THRESHOLD ≤ msg.overall)
    breakdown := msg.breakdown.map (fun b =>
      { parameter := b.parameter, score := round1 b.score,
        confidence := b.confidence, rationale := b.rationale,
        version := b.version }) }

/-- Dimensions already recorded in a job's `received` list, in arrival
order. -/
def receivedParams (st : JobState) : List Param :=
  st.received.map (fun r => r.parameter)

/-- Structural tracker invariant for one job (spec §3): the still-expected
dimensions and the already-received ones tile the full dimension set, and
no dimension is received twice. -/
def jobWF (st : JobState) : Prop :=
  st.expected ∪ (receivedParams st).toFinset = Finset.univ ∧
  (receivedParams st).Nodup ∧
  Disjoint st.expected (receivedParams st).toFinset

/-- `jobWF` for every tracked job. -/
def pendingWF (P : Pending) : Prop :=
  ∀ e ∈ P, jobWF e.2

/-- Range invariant for one job: normalized weights are non-negative and
sum to 1 over the five dimensions, and every recorded score lies in
`[0, 100]`. -/
def jobRange (st : JobState) : Prop :=
  (∀ p, 0 ≤ st.weights p) ∧
  (PARAMS.map st.weights).sum = 1 ∧
  (∀ r ∈ st.received, 0 ≤ r.score ∧ r.score ≤ 100)

/-- `jobRange` for every tracked job. -/
def pendingRange (P : Pending) : Prop :=
  ∀ e ∈ P, jobRange e.2

/-- A 25-word summary containing the blocklisted phrase "cold fusion". -/
def exKw : String :=
  "cold fusion power plants could supply cheap clean energy to every home and factory on earth within a decade according to this bold detailed proposal"

/-- The same summary with the blocklisted phrase swapped for a harmless
one, keeping the word count at 25. -/
def exPlain : String :=
  "solar panel power plants could supply cheap clean energy to every home and factory on earth within a decade according to this bold detailed proposal"

/-- Weights dictionary `{"cost": -1.0, "ethics": 1.0, "market": 1.0}`:
its sum over the five dimensions is positive, so `normalize_weights`
keeps the negative entry. -/
def negDict : WeightDict :=
  fun p =>
    match p with
    | .cost => some (-1)
    | .ethics => some 1
    | .market => some 1
    | _ => none

/-- Handler sequence reaching a job whose two received dimensions have
normalized weights `-1` and `1`: request at time 0, `cost` scored 100,
`ethics` scored 0, then a sweep at time 11. -/
def evC9pre : List Event :=
  [.request "gw" { title := "t", summary := "s", weights := some negDict,
                   corr_id := some "c" } "job" 0,
   .subscore { request_id := "job", parameter := .cost, score := 100,
               confidence := 1, rationale := "x" },
   .subscore { request_id := "job", parameter := .ethics, score := 0,
               confidence := 1, rationale := "y" }]

/-- `evC9pre` followed by the expiring sweep. -/
def evC9 : List Event :=
  evC9pre ++ [.sweep 11]

/-- A job one response short of completion: only `timing` outstanding. -/
def C2st : JobState :=
  { sender := "gw"
    weights := DEFAULT_WEIGHTS
    expected := {Param.timing}
    received :=
      [{ request_id := "job", parameter := .cost, score := 70, confidence := 3/5, rationale := "c" },
       { request_id := "job", parameter := .ethics, score := 85, confidence := 7/10, rationale := "e" },
       { request_id := "job", parameter := .market, score := 80, confidence := 11/20, rationale := "m" },
       { request_id := "job", parameter := .tech, score := 75, confidence := 3/5, rationale := "t" }]
    created_at := 0
    corr_id := some "c" }

/-- A tracker holding just the nearly-complete job `C2st`. -/
def C2P : Pending := [("job", C2st)]

/-- The final `timing` response completing `C2st`. -/
def C2resp : SubscoreResponse :=
  { request_id := "job", parameter := .timing, score := 75, confidence := 1/2, rationale := "ti" }

/-- A job that received only `ethics` while only `cost` carries weight:
the received dimensions have total normalized weight 0. -/
def C9st : JobState :=
  { sender := "gw"
    weights := fun p => if p = Param.cost then 1 else 0
    expected := {Param.cost, Param.market, Param.tech, Param.timing}
    received :=
      [{ request_id := "j", parameter := .ethics, score := 50, confidence := 7/10, rationale := "e" }]
    created_at := 0
    corr_id := none }

/-- A tracker holding just `C9st`. -/
def C9P : Pending := [("j", C9st)]

/-- A job that received `cost` with the remaining four dimensions still
outstanding. -/
def C3st : JobState :=
  { sender := "gw"
    weights := DEFAULT_WEIGHTS
    expected := {Param.ethics, Param.market, Param.tech, Param.timing}
    received :=
      [{ request_id := "j3", parameter := .cost, score := 60, confidence := 3/5, rationale := "c" }]
    created_at := 0
    corr_id := some "k" }

/-- A tracker holding just `C3st`. -/
def C3P : Pending := [("j3", C3st)]

/-- A job with `cost` already received, used to exercise the duplicate
drop. -/
def C5st : JobState :=
  { sender := "gw"
    weights := DEFAULT_WEIGHTS
    expected := {Param.ethics, Param.market, Param.tech, Param.timing}
    received :=
      [{ request_id := "j5", parameter := .cost, score := 40, confidence := 3/5, rationale := "c" }]
    created_at := 0
    corr_id := none }

/-- A tracker holding just `C5st`. -/
def C5P : Pending := [("j5", C5st)]

/-- A duplicate `cost` response for the job `C5st`. -/
def C5resp : SubscoreResponse :=
  { request_id := "j5", parameter := .cost, score := 90, confidence := 3/5, rationale := "dup" }

/-- Trace for witnesses: a valid request, one subscore, then an expiring
sweep — it emits exactly one (partial) aggregate for the job. -/
def evTrace : List Event :=
  [.request "gw" { title := "Solar panel marketplace", summary := "a tidy marketplace idea",
                   corr_id := some "h" } "job" 0,
   .subscore { request_id := "job", parameter := .tech, score := 64, confidence := 3/5,
               rationale := "t" },
   .sweep 20]

theorem lookupJob_cons (k : String) (v : JobState) (tl : Pending) (rid : String) :
    lookupJob ((k, v) :: tl) rid = if k = rid then some v else lookupJob tl rid := rfl

theorem setJob_cons (k : String) (v : JobState) (tl : Pending) (rid : String) (st : JobState) :
    setJob ((k, v) :: tl) rid st =
      if k = rid then (rid, st) :: tl else (k, v) :: setJob tl rid st := rfl

theorem delJob_cons (k : String) (v : JobState) (tl : Pending) (rid : String) :
    delJob ((k, v) :: tl) rid = if k = rid then tl else (k, v) :: delJob tl rid := rfl

theorem timeout_sweeper_cons (k : String) (v : JobState) (tl : Pending) (now : ℚ) :
    timeout_sweeper ((k, v) :: tl) now =
      if now - v.created_at > TIMEOUT_S then
        ((timeout_sweeper tl now).1, mkTimeoutAgg k v :: (timeout_sweeper tl now).2)
      else
        ((k, v) :: (timeout_sweeper tl now).1, (timeout_sweeper tl now).2) := rfl

theorem lookupJob_eq_none_iff (P : Pending) (rid : String) :
    lookupJob P rid = none ↔ ∀ e ∈ P, e.1 ≠ rid := by
  induction P with
  | nil => simp [lookupJob]
  | cons hd tl ih =>
    obtain ⟨k, v⟩ := hd
    by_cases hk : k = rid
    · subst hk
      simp [lookupJob]
    · simp [lookupJob, hk, ih]

theorem lookupJob_mem {P : Pending} {rid : String} {st : JobState}
    (h : lookupJob P rid = some st) : (rid, st) ∈ P := by
  induction P with
  | nil => simp [lookupJob] at h
  | cons hd tl ih =>
    obtain ⟨k, v⟩ := hd
    by_cases hk : k = rid
    · subst hk
      simp [lookupJob] at h
      simp [h]
    · simp [lookupJob, hk] at h
      exact List.mem_cons_of_mem _ (ih h)

theorem mem_keys_unique {P : Pending} {rid : String} {a b : JobState}
    (hnd : (P.map Prod.fst).Nodup) (ha : (rid, a) ∈ P) (hb : (rid, b) ∈ P) :
    a = b := by
  induction P with
  | nil => simp at ha
  | cons hd tl ih =>
    obtain ⟨k, v⟩ := hd
    simp only [List.map_cons, List.nodup_cons] at hnd
    rcases List.mem_cons.mp ha with ha' | ha' <;>
      rcases List.mem_cons.mp hb with hb' | hb'
    · simp only [Prod.mk.injEq] at ha' hb'
      rw [ha'.2, hb'.2]
    · simp only [Prod.mk.injEq] at ha'
      exfalso
      apply hnd.1
      rw [← ha'.1]
      exact List.mem_map_of_mem Prod.fst hb'
    · simp only [Prod.mk.injEq] at hb'
      exfalso
      apply hnd.1
      rw [← hb'.1]
      exact List.mem_map_of_mem Prod.fst ha'
    · exact ih hnd.2 ha' hb'

theorem setJob_of_lookup_some {P : Pending} {rid : String} {st : JobState}
    (h : lookupJob P rid = some st) : setJob P rid st = P := by
  induction P with
  | nil => simp [lookupJob] at h
  | cons hd tl ih =>
    obtain ⟨k, v⟩ := hd
    by_cases hk : k = rid
    · subst hk
      simp [lookupJob] at h
      simp [setJob, h]
    · simp [lookupJob, hk] at h
      simp [setJob, hk, ih h]

theorem lookupJob_setJob_other {P : Pending} {k rid : String} {v : JobState}
    (h : k ≠ rid) : lookupJob (setJob P k v) rid = lookupJob P rid := by
  induction P with
  | nil => simp [setJob, lookupJob, h]
  | cons hd tl ih =>
    obtain ⟨k', v'⟩ := hd
    by_cases hk : k' = k
    · subst hk
      simp [setJob, lookupJob, h]
    · by_cases hr : k' = rid
      · subst hr
        simp [setJob, hk, lookupJob]
      · simp [setJob, hk, lookupJob, hr, ih]

theorem lookupJob_delJob_other {P : Pending} {k rid : String}
    (h : k ≠ rid) : lookupJob (delJob P k) rid = lookupJob P rid := by
  induction P with
  | nil => simp [delJob]
  | cons hd tl ih =>
    obtain ⟨k', v'⟩ := hd
    by_cases hk : k' = k
    · subst hk
      simp [delJob, lookupJob, h]
    · by_cases hr : k' = rid
      · subst hr
        simp [delJob, hk, lookupJob]
      · simp [delJob, hk, lookupJob, hr, ih]

theorem lookupJob_delJob_self {P : Pending} {rid : String}
    (hnd : (P.map Prod.fst).Nodup) : lookupJob (delJob P rid) rid = none := by
  induction P with
  | nil => simp [delJob, lookupJob]
  | cons hd tl ih =>
    obtain ⟨k, v⟩ := hd
    simp only [List.map_cons, List.nodup_cons] at hnd
    by_cases hk : k = rid
    · subst hk
      simp only [delJob, if_pos rfl]
      rw [lookupJob_eq_none_iff]
      intro e he hke
      exact hnd.1 (hke ▸ List.mem_map_of_mem Prod.fst he)
    · simp [delJob, hk, lookupJob, ih hnd.2]

theorem mem_setJob {P : Pending} {k : String} {v : JobState} {e : String × JobState} :
    e ∈ setJob P k v → e = (k, v) ∨ e ∈ P := by
  induction P with
  | nil =>
    intro h
    simp [setJob] at h
    exact Or.inl h
  | cons hd tl ih =>
    obtain ⟨k', v'⟩ := hd
    intro h
    by_cases hk : k' = k
    · subst hk
      simp [setJob] at h
      rcases h with h1 | h1
      · exact Or.inl h1
      · exact Or.inr (List.mem_cons_of_mem _ h1)
    · simp only [setJob, if_neg hk, List.mem_cons] at h
      rcases h with h1 | h1
      · exact Or.inr (List.mem_cons.mpr (Or.inl h1))
      · rcases ih h1 with h2 | h2
        · exact Or.inl h2
        · exact Or.inr (List.mem_cons_of_mem _ h2)

theorem mem_delJob {P : Pending} {k : String} {e : String × JobState} :
    e ∈ delJob P k → e ∈ P := by
  induction P with
  | nil =>
    intro h
    simp [delJob] at h
  | cons hd tl ih =>
    obtain ⟨k', v'⟩ := hd
    intro h
    by_cases hk : k' = k
    · subst hk
      simp only [delJob, if_pos rfl] at h
      exact List.mem_cons_of_mem _ h
    · simp only [delJob, if_neg hk, List.mem_cons] at h
      rcases h with h1 | h1
      · exact List.mem_cons.mpr (Or.inl h1)
      · exact List.mem_cons_of_mem _ (ih h1)

theorem ridCount_nil (rid : String) : ridCount [] rid = 0 := rfl

theorem ridCount_cons (k : String) (v : JobState) (P : Pending) (rid : String) :
    ridCount ((k, v) :: P) rid = (if k = rid then 1 else 0) + ridCount P rid := by
  by_cases hk : k = rid <;> simp [ridCount, hk, Nat.add_comm]

theorem lookupJob_eq_none_iff_ridCount (P : Pending) (rid : String) :
    lookupJob P rid = none ↔ ridCount P rid = 0 := by
  induction P with
  | nil => simp [lookupJob, ridCount]
  | cons hd tl ih =>
    obtain ⟨k, v⟩ := hd
    by_cases hk : k = rid
    · subst hk
      simp [lookupJob, ridCount_cons]
    · simp [lookupJob, hk, ridCount_cons, ih]

theorem ridCount_setJob_other {P : Pending} {k rid : String} {v : JobState}
    (h : k ≠ rid) : ridCount (setJob P k v) rid = ridCount P rid := by
  induction P with
  | nil => simp [setJob, ridCount_cons, h, ridCount_nil]
  | cons hd tl ih =>
    obtain ⟨k', v'⟩ := hd
    by_cases hk : k' = k
    · subst hk
      simp [setJob, ridCount_cons, h]
    · simp [setJob, hk, ridCount_cons, ih]

theorem ridCount_setJob_le (P : Pending) (k : String) (v : JobState) (rid : String) :
    ridCount (setJob P k v) rid ≤ ridCount P rid + 1 := by
  induction P with
  | nil =>
    by_cases hk : k = rid <;> simp [setJob, ridCount_cons, ridCount_nil, hk]
  | cons hd tl ih =>
    obtain ⟨k', v'⟩ := hd
    by_cases hk : k' = k
    · rw [setJob_cons, if_pos hk, hk, ridCount_cons, ridCount_cons]
      omega
    · rw [setJob_cons, if_neg hk, ridCount_cons, ridCount_cons]
      omega

theorem ridCount_setJob_of_lookup_some {P : Pending} {k : String} {st v : JobState}
    (h : lookupJob P k = some st) (rid : String) :
    ridCount (setJob P k v) rid = ridCount P rid := by
  induction P with
  | nil => simp [lookupJob] at h
  | cons hd tl ih =>
    obtain ⟨k', v'⟩ := hd
    by_cases hk : k' = k
    · rw [setJob_cons, if_pos hk, ridCount_cons, ridCount_cons, hk]
    · rw [lookupJob_cons, if_neg hk] at h
      rw [setJob_cons, if_neg hk, ridCount_cons, ridCount_cons, ih h]

theorem ridCount_delJob_self {P : Pending} {rid : String} {st : JobState}
    (h : lookupJob P rid = some st) :
    ridCount (delJob P rid) rid + 1 = ridCount P rid := by
  induction P with
  | nil => simp [lookupJob] at h
  | cons hd tl ih =>
    obtain ⟨k, v⟩ := hd
    by_cases hk : k = rid
    · subst hk
      simp [delJob, ridCount_cons, Nat.add_comm]
    · rw [lookupJob_cons, if_neg hk] at h
      rw [delJob_cons, if_neg hk, ridCount_cons, ridCount_cons, ← ih h]
      simp [hk]

theorem ridCount_delJob_other {P : Pending} {k rid : String}
    (h : k ≠ rid) : ridCount (delJob P k) rid = ridCount P rid := by
  induction P with
  | nil => simp [delJob]
  | cons hd tl ih =>
    obtain ⟨k', v'⟩ := hd
    by_cases hk : k' = k
    · subst hk
      simp [delJob, ridCount_cons, h]
    · simp only [delJob, if_neg hk]
      rw [ridCount_cons, ridCount_cons, ih]

theorem countAggFor_nil (rid : String) : countAggFor rid [] = 0 := rfl

theorem countAggFor_cons (rid : String) (a : FeasibilityAggregate)
    (l : List FeasibilityAggregate) :
    countAggFor rid (a :: l) =
      (if a.request_id = rid then 1 else 0) + countAggFor rid l := by
  by_cases h : a.request_id = rid <;> simp [countAggFor, h, Nat.add_comm]

theorem countAggFor_append (rid : String) (l₁ l₂ : List FeasibilityAggregate) :
    countAggFor rid (l₁ ++ l₂) = countAggFor rid l₁ + countAggFor rid l₂ := by
  simp [countAggFor, List.filter_append]

theorem mem_sweeper_fst {P : Pending} {now : ℚ} {e : String × JobState} :
    e ∈ (timeout_sweeper P now).1 → e ∈ P := by
  induction P with
  | nil =>
    intro h
    simp [timeout_sweeper] at h
  | cons hd tl ih =>
    obtain ⟨k, v⟩ := hd
    intro h
    by_cases hx : now - v.created_at > TIMEOUT_S
    · rw [timeout_sweeper_cons, if_pos hx] at h
      exact List.mem_cons_of_mem _ (ih h)
    · rw [timeout_sweeper_cons, if_neg hx] at h
      rcases List.mem_cons.mp h with h1 | h1
      · exact List.mem_cons.mpr (Or.inl h1)
      · exact List.mem_cons_of_mem _ (ih h1)

theorem mem_sweeper_snd {P : Pending} {now : ℚ} {a : FeasibilityAggregate} :
    a ∈ (timeout_sweeper P now).2 →
      ∃ e ∈ P, now - e.2.created_at > TIMEOUT_S ∧ a = mkTimeoutAgg e.1 e.2 := by
  induction P with
  | nil =>
    intro h
    simp [timeout_sweeper] at h
  | cons hd tl ih =>
    obtain ⟨k, v⟩ := hd
    intro h
    by_cases hx : now - v.created_at > TIMEOUT_S
    · rw [timeout_sweeper_cons, if_pos hx] at h
      rcases List.mem_cons.mp h with h1 | h1
      · exact ⟨(k, v), List.mem_cons_self _ _, hx, h1⟩
      · obtain ⟨e, he, hxe, hae⟩ := ih h1
        exact ⟨e, List.mem_cons_of_mem _ he, hxe, hae⟩
    · rw [timeout_sweeper_cons, if_neg hx] at h
      obtain ⟨e, he, hxe, hae⟩ := ih h
      exact ⟨e, List.mem_cons_of_mem _ he, hxe, hae⟩

theorem sweeper_mem {P : Pending} {now : ℚ} {rid : String} {st : JobState}
    (h2 : now - st.created_at > TIMEOUT_S) :
    lookupJob P rid = some st → mkTimeoutAgg rid st ∈ (timeout_sweeper P now).2 := by
  induction P with
  | nil =>
    intro h1
    simp [lookupJob] at h1
  | cons hd tl ih =>
    obtain ⟨k, v⟩ := hd
    intro h1
    rw [lookupJob_cons] at h1
    by_cases hk : k = rid
    · rw [if_pos hk] at h1
      obtain rfl : v = st := Option.some.inj h1
      rw [timeout_sweeper_cons, if_pos h2, hk]
      exact List.mem_cons_self _ _
    · rw [if_neg hk] at h1
      by_cases hx : now - v.created_at > TIMEOUT_S
      · rw [timeout_sweeper_cons, if_pos hx]
        exact List.mem_cons_of_mem _ (ih h1)
      · rw [timeout_sweeper_cons, if_neg hx]
        exact ih h1

theorem sweeper_lookup_none {P : Pending} {now : ℚ} {rid : String} {st : JobState}
    (h2 : now - st.created_at > TIMEOUT_S) :
    (P.map Prod.fst).Nodup → lookupJob P rid = some st →
      lookupJob (timeout_sweeper P now).1 rid = none := by
  induction P with
  | nil =>
    intro _ h1
    simp [lookupJob] at h1
  | cons hd tl ih =>
    obtain ⟨k, v⟩ := hd
    intro hnd h1
    simp only [List.map_cons, List.nodup_cons] at hnd
    rw [lookupJob_cons] at h1
    by_cases hk : k = rid
    · rw [if_pos hk] at h1
      obtain rfl : v = st := Option.some.inj h1
      rw [timeout_sweeper_cons, if_pos h2]
      rw [lookupJob_eq_none_iff]
      intro e he hke
      apply hnd.1
      rw [hk, ← hke]
      exact List.mem_map_of_mem Prod.fst (mem_sweeper_fst he)
    · rw [if_neg hk] at h1
      by_cases hx : now - v.created_at > TIMEOUT_S
      · rw [timeout_sweeper_cons, if_pos hx]
        exact ih hnd.2 h1
      · rw [timeout_sweeper_cons, if_neg hx]
        rw [lookupJob_cons, if_neg hk]
        exact ih hnd.2 h1

theorem sweep_count (P : Pending) (now : ℚ) (rid : String) :
    countAggFor rid (timeout_sweeper P now).2 + ridCount (timeout_sweeper P now).1 rid =
      ridCount P rid := by
  induction P with
  | nil => simp [timeout_sweeper, countAggFor, ridCount]
  | cons hd tl ih =>
    obtain ⟨k, v⟩ := hd
    by_cases hx : now - v.created_at > TIMEOUT_S
    · rw [timeout_sweeper_cons, if_pos hx]
      have hreq : (mkTimeoutAgg k v).request_id = k := rfl
      simp only [countAggFor_cons, ridCount_cons, hreq]
      omega
    · rw [timeout_sweeper_cons, if_neg hx]
      simp only [ridCount_cons]
      omega

theorem default_weights_sum : (PARAMS.map DEFAULT_WEIGHTS).sum = 1 := by
  norm_num [PARAMS, DEFAULT_WEIGHTS]

theorem normalize_weights_default {w : WeightDict} (h : wsum w ≤ 0) :
    normalize_weights w = DEFAULT_WEIGHTS := by
  funext p
  simp only [normalize_weights]
  rw [if_pos h, default_weights_sum, div_one]

theorem normalize_weights_pos {w : WeightDict} (h : 0 < wsum w) (p : Param) :
    normalize_weights w p = wget w p / wsum w := by
  simp only [normalize_weights]
  rw [if_neg (not_le.mpr h)]

theorem normalize_weights_sum_one (w : WeightDict) :
    (PARAMS.map (normalize_weights w)).sum = 1 := by
  by_cases h : wsum w ≤ 0
  · rw [normalize_weights_default h]
    exact default_weights_sum
  · have h' : 0 < wsum w := not_le.mp h
    have hne : wsum w ≠ 0 := ne_of_gt h'
    have hs : wsum w =
        wget w .cost + (wget w .ethics + (wget w .market + (wget w .tech +
          (wget w .timing + 0)))) := by
      simp [wsum, PARAMS]
    have hp : ∀ p, normalize_weights w p = wget w p / wsum w :=
      normalize_weights_pos h'
    simp only [PARAMS, List.map_cons, List.map_nil, List.sum_cons, List.sum_nil, hp]
    field_simp
    linarith [hs]

theorem normalize_weights_nonneg {w : WeightDict} (h : ∀ p, 0 ≤ wget w p) (p : Param) :
    0 ≤ normalize_weights w p := by
  by_cases hs : wsum w ≤ 0
  · rw [normalize_weights_default hs]
    cases p <;> norm_num [DEFAULT_WEIGHTS]
  · rw [normalize_weights_pos (not_le.mp hs) p]
    exact div_nonneg (h p) (le_of_lt (not_le.mp hs))

theorem list_sum_eq_zero_of_nonneg {l : List ℚ} (h : ∀ x ∈ l, 0 ≤ x)
    (hz : l.sum = 0) : ∀ x ∈ l, x = 0 := by
  induction l with
  | nil => simp
  | cons a tl ih =>
    have ha : 0 ≤ a := h a (List.mem_cons_self _ _)
    have htl : 0 ≤ tl.sum :=
      List.sum_nonneg (fun x hx => h x (List.mem_cons_of_mem _ hx))
    rw [List.sum_cons] at hz
    have ha0 : a = 0 := by linarith
    have htl0 : tl.sum = 0 := by linarith
    intro x hx
    rcases List.mem_cons.mp hx with rfl | hx'
    · exact ha0
    · exact ih (fun y hy => h y (List.mem_cons_of_mem _ hy)) htl0 x hx'

theorem weightedSum_nonneg {w : Param → ℚ} {l : List SubscoreResponse}
    (hw : ∀ p, 0 ≤ w p) (hs : ∀ r ∈ l, 0 ≤ r.score) :
    0 ≤ weightedSum w l := by
  apply List.sum_nonneg
  intro x hx
  obtain ⟨r, hr, rfl⟩ := List.mem_map.mp hx
  exact mul_nonneg (hs r hr) (hw _)

theorem sum_w_over_nodup_le {w : Param → ℚ} (hw : ∀ p, 0 ≤ w p)
    (hsum : (PARAMS.map w).sum = 1) {q : List Param} (hnd : q.Nodup) :
    (q.map w).sum ≤ 1 := by
  have h1 : q.toFinset.sum w = (q.map w).sum := List.sum_toFinset w hnd
  have h2 : q.toFinset.sum w ≤ (Finset.univ : Finset Param).sum w :=
    Finset.sum_le_sum_of_subset_of_nonneg (Finset.subset_univ _) (fun p _ _ => hw p)
  have h3 : (Finset.univ : Finset Param) = PARAMS.toFinset := by decide
  have h4 : (Finset.univ : Finset Param).sum w = (PARAMS.map w).sum := by
    rw [h3]
    exact List.sum_toFinset w (by decide)
  rw [← h1]
  rw [h4, hsum] at h2
  exact h2

theorem usedWeight_nonneg {st : JobState} (hw : ∀ p, 0 ≤ st.weights p) :
    0 ≤ usedWeight st :=
  List.sum_nonneg (by
    intro x hx
    obtain ⟨r, hr, rfl⟩ := List.mem_map.mp hx
    exact hw _)

theorem weightedSum_le_mul_used {w : Param → ℚ} {l : List SubscoreResponse}
    (hw : ∀ p, 0 ≤ w p) (hsc : ∀ r ∈ l, r.score ≤ 100) :
    weightedSum w l ≤ 100 * (l.map (fun r => w r.parameter)).sum := by
  unfold weightedSum
  have h : (l.map (fun r => r.score * w r.parameter)).sum ≤
      (l.map (fun r => 100 * w r.parameter)).sum :=
    List.sum_le_sum (fun r hr => mul_le_mul_of_nonneg_right (hsc r hr) (hw _))
  calc (l.map (fun r => r.score * w r.parameter)).sum
      ≤ (l.map (fun r => 100 * w r.parameter)).sum := h
    _ = 100 * (l.map (fun r => w r.parameter)).sum := by
        rw [← List.sum_map_mul_left]

theorem usedWeight_le_one {st : JobState}
    (hw : ∀ p, 0 ≤ st.weights p) (hsum : (PARAMS.map st.weights).sum = 1)
    (hnd : (receivedParams st).Nodup) :
    usedWeight st ≤ 1 := by
  have h : usedWeight st = ((receivedParams st).map st.weights).sum := by
    unfold usedWeight receivedParams
    rw [List.map_map]
    rfl
  rw [h]
  exact sum_w_over_nodup_le hw hsum hnd

theorem timeoutOverall_bounds {st : JobState}
    (hw : ∀ p, 0 ≤ st.weights p) (hsum : (PARAMS.map st.weights).sum = 1)
    (hnd : (receivedParams st).Nodup)
    (hsc : ∀ r ∈ st.received, 0 ≤ r.score ∧ r.score ≤ 100) :
    0 ≤ timeoutOverall st ∧ timeoutOverall st ≤ 100 := by
  have hdef : timeoutOverall st =
      if st.received = [] then 0
      else weightedSum st.weights st.received /
        (if usedWeight st = 0 then 1 else usedWeight st) := rfl
  rw [hdef]
  by_cases hrecv : st.received = []
  · simp [hrecv]
  · rw [if_neg hrecv]
    have hu0 : 0 ≤ usedWeight st := usedWeight_nonneg hw
    by_cases hz : usedWeight st = 0
    · have hall : ∀ x ∈ st.received.map (fun r => st.weights r.parameter), x = 0 :=
        list_sum_eq_zero_of_nonneg
          (by
            intro x hx
            obtain ⟨r, hr, rfl⟩ := List.mem_map.mp hx
            exact hw _)
          hz
      have hws : weightedSum st.weights st.received = 0 := by
        apply List.sum_eq_zero
        intro x hx
        obtain ⟨r, hr, rfl⟩ := List.mem_map.mp hx
        have : st.weights r.parameter = 0 :=
          hall _ (List.mem_map.mpr ⟨r, hr, rfl⟩)
        rw [this, mul_zero]
      rw [hz, if_pos rfl, hws]
      norm_num
    · rw [if_neg hz]
      have hupos : 0 < usedWeight st := lt_of_le_of_ne hu0 (Ne.symm hz)
      have hnum0 : 0 ≤ weightedSum st.weights st.received :=
        weightedSum_nonneg hw (fun r hr => (hsc r hr).1)
      have hnum1 : weightedSum st.weights st.received ≤ 100 * usedWeight st :=
        weightedSum_le_mul_used hw (fun r hr => (hsc r hr).2)
      constructor
      · exact div_nonneg hnum0 hu0
      · rw [div_le_iff hupos]
        linarith [hnum1]

theorem overall_full_bounds {st : JobState}
    (hw : ∀ p, 0 ≤ st.weights p) (hsum : (PARAMS.map st.weights).sum = 1)
    (hnd : (receivedParams st).Nodup)
    (hsc : ∀ r ∈ st.received, 0 ≤ r.score ∧ r.score ≤ 100) :
    0 ≤ weightedSum st.weights st.received ∧ weightedSum st.weights st.received ≤ 100 := by
  constructor
  · exact weightedSum_nonneg hw (fun r hr => (hsc r hr).1)
  · have h1 : weightedSum st.weights st.received ≤ 100 * usedWeight st :=
      weightedSum_le_mul_used hw (fun r hr => (hsc r hr).2)
    have h2 : usedWeight st ≤ 1 := usedWeight_le_one hw hsum hnd
    linarith

theorem jobWF_new (sender : String) (w : Param → ℚ) (t : ℚ) (c : Option String) :
    jobWF { sender := sender, weights := w, expected := Finset.univ,
            received := [], created_at := t, corr_id := c } := by
  refine ⟨?_, ?_, ?_⟩ <;> simp [receivedParams]

theorem jobWF_update {st : JobState} (hwf : jobWF st) {resp : SubscoreResponse}
    (hp : resp.parameter ∈ st.expected) :
    jobWF { st with expected := st.expected.erase resp.parameter,
                    received := st.received ++ [resp] } := by
  obtain ⟨hu, hn, hd⟩ := hwf
  have hpnotin : resp.parameter ∉ receivedParams st := by
    intro hmem
    exact (Finset.disjoint_left.mp hd hp) (List.mem_toFinset.mpr hmem)
  refine ⟨?_, ?_, ?_⟩
  · ext q
    simp only [receivedParams, List.map_append, List.map_cons, List.map_nil,
      List.toFinset_append, Finset.mem_union, Finset.mem_erase, Finset.mem_univ,
      iff_true, List.toFinset_cons, List.toFinset_nil, insert_emptyc_eq,
      Finset.mem_insert, Finset.mem_singleton]
    by_cases hq : q = resp.parameter
    · right
      right
      exact hq
    · have : q ∈ st.expected ∪ (receivedParams st).toFinset := by
        rw [hu]
        exact Finset.mem_univ q
      rcases Finset.mem_union.mp this with h1 | h1
      · exact Or.inl ⟨hq, h1⟩
      · exact Or.inr (Or.inl (by simpa [receivedParams] using h1))
  · simp only [receivedParams, List.map_append, List.map_cons, List.map_nil]
    rw [List.nodup_append]
    refine ⟨hn, List.nodup_singleton _, ?_⟩
    intro a ha hb
    simp only [List.mem_singleton] at hb
    subst hb
    exact hpnotin ha
  · rw [Finset.disjoint_left]
    intro q hq hmem
    have hq1 : q ∈ st.expected := Finset.mem_of_mem_erase hq
    have hq2 : q ≠ resp.parameter := Finset.ne_of_mem_erase hq
    simp only [receivedParams, List.map_append, List.map_cons, List.map_nil,
      List.toFinset_append, Finset.mem_union, List.toFinset_cons, List.toFinset_nil,
      insert_emptyc_eq, Finset.mem_insert, Finset.mem_singleton] at hmem
    rcases hmem with h1 | h1
    · exact (Finset.disjoint_left.mp hd hq1) (by simpa [receivedParams] using h1)
    · exact hq2 h1

theorem jobRange_update {st : JobState} (hr : jobRange st) {resp : SubscoreResponse}
    (hsc : 0 ≤ resp.score ∧ resp.score ≤ 100) :
    jobRange { st with expected := st.expected.erase resp.parameter,
                       received := st.received ++ [resp] } := by
  obtain ⟨hw, hsum, hrec⟩ := hr
  refine ⟨hw, hsum, ?_⟩
  intro r hrmem
  rcases List.mem_append.mp hrmem with h1 | h1
  · exact hrec r h1
  · simp only [List.mem_singleton] at h1
    subst h1
    exact hsc

theorem pendingWF_on_feasibility_request {P : Pending} (hwf : pendingWF P)
    (sender : String) (msg : FeasibilityRequest) (rid : String) (now : ℚ) :
    pendingWF (on_feasibility_request P sender msg rid now).1 := by
  unfold on_feasibility_request
  by_cases hc : pyStrip msg.title = "" ∨ pyStrip msg.summary = ""
  · rw [if_pos hc]
    exact hwf
  · rw [if_neg hc]
    intro e he
    rcases mem_setJob he with rfl | he'
    · exact jobWF_new _ _ _ _
    · exact hwf e he'

theorem pendingRange_on_feasibility_request {P : Pending} (hr : pendingRange P)
    (sender : String) {msg : FeasibilityRequest} (rid : String) (now : ℚ)
    (hok : match msg.weights with
           | none => True
           | some w => ∀ p, 0 ≤ wget w p) :
    pendingRange (on_feasibility_request P sender msg rid now).1 := by
  unfold on_feasibility_request
  by_cases hc : pyStrip msg.title = "" ∨ pyStrip msg.summary = ""
  · rw [if_pos hc]
    exact hr
  · rw [if_neg hc]
    intro e he
    rcases mem_setJob he with rfl | he'
    · have hnn : ∀ p, 0 ≤ wget (msg.weights.getD (fun p => some (DEFAULT_WEIGHTS p))) p := by
        cases hmw : msg.weights with
        | none =>
          intro p
          simp only [Option.getD, wget]
          cases p <;> norm_num [DEFAULT_WEIGHTS]
        | some w =>
          rw [hmw] at hok
          simpa using hok
      exact ⟨fun p => normalize_weights_nonneg hnn p,
             normalize_weights_sum_one _,
             by intro r hr0; simp at hr0⟩
    · exact hr e he'

theorem pendingWF_on_subscore {P : Pending} (hwf : pendingWF P)
    (resp : SubscoreResponse) :
    pendingWF (on_subscore P resp).1 := by
  unfold on_subscore
  cases hl : lookupJob P resp.request_id with
  | none => exact hwf
  | some st =>
    have hst : jobWF st := hwf _ (lookupJob_mem hl)
    have hst' : jobWF (if resp.parameter ∈ st.expected then
        { st with expected := st.expected.erase resp.parameter,
                  received := st.received ++ [resp] } else st) := by
      by_cases hp : resp.parameter ∈ st.expected
      · rw [if_pos hp]
        exact jobWF_update hst hp
      · rw [if_neg hp]
        exact hst
    by_cases hdone : (if resp.parameter ∈ st.expected then
        { st with expected := st.expected.erase resp.parameter,
                  received := st.received ++ [resp] } else st).expected = ∅
    · dsimp only
      rw [if_pos hdone]
      intro e he
      exact hwf e (mem_delJob he)
    · dsimp only
      rw [if_neg hdone]
      intro e he
      rcases mem_setJob he with rfl | he'
      · exact hst'
      · exact hwf e he'

theorem pendingRange_on_subscore {P : Pending} (hr : pendingRange P)
    {resp : SubscoreResponse} (hok : 0 ≤ resp.score ∧ resp.score ≤ 100) :
    pendingRange (on_subscore P resp).1 := by
  unfold on_subscore
  cases hl : lookupJob P resp.request_id with
  | none => exact hr
  | some st =>
    have hst : jobRange st := hr _ (lookupJob_mem hl)
    have hst' : jobRange (if resp.parameter ∈ st.expected then
        { st with expected := st.expected.erase resp.parameter,
                  received := st.received ++ [resp] } else st) := by
      by_cases hp : resp.parameter ∈ st.expected
      · rw [if_pos hp]
        exact jobRange_update hst hok
      · rw [if_neg hp]
        exact hst
    by_cases hdone : (if resp.parameter ∈ st.expected then
        { st with expected := st.expected.erase resp.parameter,
                  received := st.received ++ [resp] } else st).expected = ∅
    · dsimp only
      rw [if_pos hdone]
      intro e he
      exact hr e (mem_delJob he)
    · dsimp only
      rw [if_neg hdone]
      intro e he
      rcases mem_setJob he with rfl | he'
      · exact hst'
      · exact hr e he'

theorem pendingWF_step {P : Pending} (hwf : pendingWF P) (e : Event) :
    pendingWF (step P e).1 := by
  cases e with
  | request sender msg rid now => exact pendingWF_on_feasibility_request hwf sender msg rid now
  | subscore resp => exact pendingWF_on_subscore hwf resp
  | sweep now =>
    intro x hx
    exact hwf x (mem_sweeper_fst hx)

theorem pendingRange_step {P : Pending} (hr : pendingRange P) {e : Event}
    (hok : eventOK e) :
    pendingRange (step P e).1 := by
  cases e with
  | request sender msg rid now => exact pendingRange_on_feasibility_request hr sender rid now hok
  | subscore resp => exact pendingRange_on_subscore hr hok
  | sweep now =>
    intro x hx
    exact hr x (mem_sweeper_fst hx)

theorem pendingWF_run {P : Pending} (hwf : pendingWF P) (es : List Event) :
    pendingWF (run P es).1 := by
  induction es generalizing P with
  | nil => exact hwf
  | cons e es ih => exact ih (pendingWF_step hwf e)

theorem pendingRange_run {P : Pending} (hr : pendingRange P) {es : List Event}
    (hok : ∀ e ∈ es, eventOK e) :
    pendingRange (run P es).1 := by
  induction es generalizing P with
  | nil => exact hr
  | cons e es ih =>
    exact ih (pendingRange_step hr (hok e (List.mem_cons_self _ _)))
      (fun x hx => hok x (List.mem_cons_of_mem _ hx))

theorem step_overall_bounds {P : Pending} (hwf : pendingWF P) (hr : pendingRange P)
    {e : Event} (hok : eventOK e) :
    ∀ a ∈ (step P e).2, 0 ≤ a.overall ∧ a.overall ≤ 100 := by
  cases e with
  | request sender msg rid now =>
    intro a ha
    simp only [step] at ha
    unfold on_feasibility_request at ha
    by_cases hc : pyStrip msg.title = "" ∨ pyStrip msg.summary = ""
    · rw [if_pos hc] at ha
      simp only [List.mem_singleton] at ha
      subst ha
      norm_num
    · rw [if_neg hc] at ha
      simp at ha
  | subscore resp =>
    intro a ha
    simp only [step] at ha
    unfold on_subscore at ha
    cases hl : lookupJob P resp.request_id with
    | none =>
      rw [hl] at ha
      simp at ha
    | some st =>
      rw [hl] at ha
      have hstWF : jobWF st := hwf _ (lookupJob_mem hl)
      have hstR : jobRange st := hr _ (lookupJob_mem hl)
      dsimp only at ha
      by_cases hdone : (if resp.parameter ∈ st.expected then
          { st with expected := st.expected.erase resp.parameter,
                    received := st.received ++ [resp] } else st).expected = ∅
      · rw [if_pos hdone] at ha
        simp only [List.mem_singleton] at ha
        subst ha
        have hWF' : jobWF (if resp.parameter ∈ st.expected then
            { st with expected := st.expected.erase resp.parameter,
                      received := st.received ++ [resp] } else st) := by
          by_cases hp : resp.parameter ∈ st.expected
          · rw [if_pos hp]
            exact jobWF_update hstWF hp
          · rw [if_neg hp]
            exact hstWF
        have hR' : jobRange (if resp.parameter ∈ st.expected then
            { st with expected := st.expected.erase resp.parameter,
                      received := st.received ++ [resp] } else st) := by
          by_cases hp : resp.parameter ∈ st.expected
          · rw [if_pos hp]
            exact jobRange_update hstR hok
          · rw [if_neg hp]
            exact hstR
        exact overall_full_bounds hR'.1 hR'.2.1 hWF'.2.1 hR'.2.2
      · rw [if_neg hdone] at ha
        simp at ha
  | sweep now =>
    intro a ha
    simp only [step] at ha
    obtain ⟨x, hx, hxe, rfl⟩ := mem_sweeper_snd ha
    have hWF : jobWF x.2 := hwf x hx
    have hR : jobRange x.2 := hr x hx
    exact timeoutOverall_bounds hR.1 hR.2.1 hWF.2.1 hR.2.2

theorem run_overall_bounds {P : Pending} (hwf : pendingWF P) (hr : pendingRange P)
    {es : List Event} (hok : ∀ e ∈ es, eventOK e) :
    ∀ a ∈ (run P es).2, 0 ≤ a.overall ∧ a.overall ≤ 100 := by
  induction es generalizing P with
  | nil =>
    intro a ha
    simp [run] at ha
  | cons e es ih =>
    intro a ha
    simp only [run] at ha
    rcases List.mem_append.mp ha with h1 | h1
    · exact step_overall_bounds hwf hr (hok e (List.mem_cons_self _ _)) a h1
    · exact ih (pendingWF_step hwf e)
        (pendingRange_step hr (hok e (List.mem_cons_self _ _)))
        (fun x hx => hok x (List.mem_cons_of_mem _ hx)) a h1

theorem step_count_bound {P : Pending} {e : Event} {rid : String}
    (hrid : rid ≠ "invalid") :
    countAggFor rid (step P e).2 + ridCount (step P e).1 rid ≤
      ridCount P rid + countMints rid [e] := by
  cases e with
  | request sender msg r now =>
    simp only [step]
    unfold on_feasibility_request
    dsimp only
    by_cases hc : pyStrip msg.title = "" ∨ pyStrip msg.summary = ""
    · rw [if_pos hc]
      dsimp only
      have h0 : countAggFor rid
          [({ request_id := "invalid", overall := 0, breakdown := [], version := 1,
              corr_id := msg.corr_id } : FeasibilityAggregate)] = 0 := by
        rw [countAggFor_cons]
        simp [Ne.symm hrid, countAggFor_nil]
      rw [h0]
      omega
    · rw [if_neg hc]
      dsimp only
      simp only [countAggFor_nil]
      by_cases hreq : r = rid
      · subst hreq
        have h1 := ridCount_setJob_le P r
          { sender := sender,
            weights := normalize_weights (msg.weights.getD (fun p => some (DEFAULT_WEIGHTS p))),
            expected := Finset.univ, received := [], created_at := now,
            corr_id := msg.corr_id } r
        have h2 : countMints r [Event.request sender msg r now] = 1 := by
          simp [countMints]
        rw [h2]
        omega
      · rw [ridCount_setJob_other hreq]
        omega
  | subscore resp =>
    simp only [step]
    unfold on_subscore
    cases hl : lookupJob P resp.request_id with
    | none => simp [countAggFor_nil]
    | some st =>
      dsimp only
      by_cases hdone : (if resp.parameter ∈ st.expected then
          { st with expected := st.expected.erase resp.parameter,
                    received := st.received ++ [resp] } else st).expected = ∅
      · rw [if_pos hdone]
        by_cases hreq : resp.request_id = rid
        · subst hreq
          rw [countAggFor_cons]
          dsimp only
          rw [if_pos (rfl : resp.request_id = resp.request_id)]
          have hm : countMints resp.request_id [Event.subscore resp] = 0 := by
            simp [countMints]
          have hd := ridCount_delJob_self hl
          rw [hm]
          simp only [countAggFor_nil]
          omega
        · rw [countAggFor_cons]
          dsimp only
          rw [if_neg hreq]
          simp only [countAggFor_nil]
          rw [ridCount_delJob_other hreq]
          omega
      · rw [if_neg hdone]
        simp only [countAggFor_nil]
        rw [ridCount_setJob_of_lookup_some hl]
        omega
  | sweep now =>
    simp only [step]
    have := sweep_count P now rid
    omega

theorem run_count_bound (P : Pending) (es : List Event) (rid : String)
    (hrid : rid ≠ "invalid") :
    countAggFor rid (run P es).2 + ridCount (run P es).1 rid ≤
      ridCount P rid + countMints rid es := by
  induction es generalizing P with
  | nil => simp [run, countAggFor_nil, countMints]
  | cons e es ih =>
    simp only [run]
    rw [countAggFor_append]
    have h1 := step_count_bound (P := P) (e := e) hrid
    have h2 := ih ((step P e).1)
    have h3 : countMints rid (e :: es) = countMints rid [e] + countMints rid es := by
      simp [countMints, List.countP_cons]
      omega
    omega

/-- Claim C4, counterexample: the weights dictionary `{"cost": 1.0}` omits
four dimensions, yet `normalize_weights` does not return the default
distribution's proportions — it keeps the caller's proportions (cost gets
weight 1, the default would give it 1/5). -/
theorem C4_counterexample :
    normalize_weights (fun p => if p = Param.cost then some 1 else none) Param.cost = 1 ∧
    DEFAULT_WEIGHTS Param.cost = 1/5 ∧ ((1 : ℚ) ≠ 1/5) := by
  have hw : wsum (fun p => if p = Param.cost then some 1 else none) = 1 := by
    simp [wsum, PARAMS, wget]
  refine ⟨?_, by norm_num [DEFAULT_WEIGHTS], by norm_num⟩
  rw [normalize_weights_pos (by rw [hw]; norm_num) Param.cost, hw]
  norm_num [wget]

/-- Claim C4 (amended): if the supplied values over the five dimensions
(missing entries read as 0) sum to a non-positive number, `normalize_weights`
returns the fixed default distribution's proportions, summing to 1; if the
sum is positive it returns weights proportional to the input (each entry
divided by the sum), summing to 1.  Merely omitting dimensions does not
trigger the default. -/
theorem C4_normalize_weights (w : WeightDict) :
    (wsum w ≤ 0 →
      normalize_weights w = DEFAULT_WEIGHTS ∧ (PARAMS.map (normalize_weights w)).sum = 1) ∧
    (0 < wsum w →
      (∀ p, normalize_weights w p = wget w p / wsum w) ∧
      (PARAMS.map (normalize_weights w)).sum = 1) := by
  constructor
  · intro h
    exact ⟨normalize_weights_default h, normalize_weights_sum_one w⟩
  · intro h
    exact ⟨fun p => normalize_weights_pos h p, normalize_weights_sum_one w⟩

/-- Claim C4, witness: the all-absent dictionary falls back to the default
distribution; the constant dictionary `2` is normalized proportionally. -/
theorem C4_witness :
    (wsum (fun _ => none) ≤ 0 ∧ normalize_weights (fun _ => none) = DEFAULT_WEIGHTS) ∧
    (0 < wsum (fun _ => some 2) ∧
      normalize_weights (fun _ => some 2) Param.market =
        wget (fun _ => some 2) Param.market / wsum (fun _ => some 2)) := by
  have h1 : wsum (fun _ => none) ≤ 0 := by simp [wsum, PARAMS, wget]
  have h2 : 0 < wsum (fun _ => some (2 : ℚ)) := by
    simp [wsum, PARAMS, wget]
    norm_num
  exact ⟨⟨h1, ((C4_normalize_weights _).1 h1).1⟩,
         ⟨h2, ((C4_normalize_weights _).2 h2).1 Param.market⟩⟩

/-- Claim C6: a request whose title or summary is empty after stripping is
rejected synchronously — the handler leaves the tracker untouched, sends a
single aggregate with the sentinel id "invalid", overall 0, empty
breakdown and the caller's correlation token, and dispatches no specialist
sub-requests. -/
theorem C6_validation_reject (P : Pending) (sender : String) (msg : FeasibilityRequest)
    (rid : String) (now : ℚ)
    (h : pyStrip msg.title = "" ∨ pyStrip msg.summary = "") :
    on_feasibility_request P sender msg rid now =
      (P, [{ request_id := "invalid", overall := 0, breakdown := [], version := 1,
             corr_id := msg.corr_id }], []) := by
  unfold on_feasibility_request
  rw [if_pos h]

/-- Claim C6, witness: an empty title is rejected with the sentinel
aggregate and no tracker entry or fan-out. -/
theorem C6_witness :
    pyStrip "" = "" ∧
    on_feasibility_request [] "gw" { title := "", summary := "idea", corr_id := some "c" }
        "r" 0 =
      ([], [{ request_id := "invalid", overall := 0, breakdown := [], version := 1,
              corr_id := some "c" }], []) :=
  ⟨rfl, C6_validation_reject [] "gw" _ "r" 0 (Or.inl (by decide))⟩

/-- Claim C10: the gateway computes `passes_threshold` from the raw
(unrounded) overall, while the reported overall is the raw value rounded
to one decimal place; on the aggregate with raw overall 74.96 the payload
reports exactly the threshold 75.0 yet `passes_threshold` is false. -/
theorem C10_gateway_threshold :
    (∀ msg : FeasibilityAggregate,
      ((on_result msg).passes_threshold = true ↔ FEASIBILITY_THRESHOLD ≤ msg.overall) ∧
      (on_result msg).overall = round1 msg.overall) ∧
    ((on_result { request_id := "r", overall := 1874/25, breakdown := [], version := 1,
                  corr_id := some "c" }).overall = FEASIBILITY_THRESHOLD ∧
     (on_result { request_id := "r", overall := 1874/25, breakdown := [], version := 1,
                  corr_id := some "c" }).passes_threshold = false) := by
  refine ⟨fun msg => ⟨?_, rfl⟩, ?_, ?_⟩
  · simp [on_result]
  · show round1 (1874/25 : ℚ) = FEASIBILITY_THRESHOLD
    rw [round1, FEASIBILITY_THRESHOLD]
    norm_num [round_eq]
  · show decide (FEASIBILITY_THRESHOLD ≤ (1874/25 : ℚ)) = false
    rw [decide_eq_false_iff_not, FEASIBILITY_THRESHOLD]
    norm_num

/-- Claim C7 (amended): for a summary containing a blocklisted keyword the
tech worker returns the constant score 5.0 with the fixed rationale (which
mentions "speculative physics"), and the cost worker's score equals the
score of the non-keyword path for an equal-length summary reduced by the
fixed 40.0 penalty but clamped below at 0 (`max(0.0, score - 40.0)` in the
source).  `sq` is the shared value of `word_count ** 0.5` of the two
equally long summaries. -/
theorem C7_keyword_penalties (rid title kwSummary plainSummary : String) (sq : ℚ)
    (hkw : contains_impossible kwSummary = true)
    (hpl : contains_impossible plainSummary = false) :
    tech_handler { request_id := rid, title := title, summary := kwSummary,
                   parameter := .tech, version := 1 } sq =
      some { request_id := rid, parameter := .tech, score := 5, confidence := 3/5,
             rationale := "Requires speculative physics/undeveloped materials",
             version := 1 } ∧
    strContains "Requires speculative physics/undeveloped materials".toList
      "speculative physics".toList = true ∧
    (cost_handler { request_id := rid, title := title, summary := kwSummary,
                    parameter := .cost, version := 1 } sq).map (fun r => r.score) =
      some (max 0 ((100 - quick_score sq 0) - 40)) ∧
    (cost_handler { request_id := rid, title := title, summary := plainSummary,
                    parameter := .cost, version := 1 } sq).map (fun r => r.score) =
      some (100 - quick_score sq 0) := by
  refine ⟨?_, by decide, ?_, ?_⟩
  · simp [tech_handler, hkw]
  · simp [cost_handler, hkw]
  · simp [cost_handler, hpl]

/-- Claim C7, witness: the 25-word "cold fusion" summary triggers both
penalties (`25 ** 0.5 = 5` exactly, so the heuristic is exact). -/
theorem C7_witness :
    contains_impossible exKw = true ∧ contains_impossible exPlain = false ∧
    (cost_handler { request_id := "r", title := "t", summary := exKw,
                    parameter := .cost, version := 1 } 5).map (fun r => r.score) =
      some (max 0 ((100 - quick_score 5 0) - 40)) :=
  ⟨by decide, by decide,
   (C7_keyword_penalties "r" "t" exKw exPlain 5 (by decide) (by decide)).2.2.1⟩

/-- Claim C7, counterexample: on a 25-word summary the non-keyword cost
score is 30, so the keyword path emits `max(0, 30 - 40) = 0`, not
`30 - 40 = -10` — the reduction is clamped, not a plain subtraction of
40. -/
theorem C7_counterexample :
    contains_impossible exKw = true ∧ contains_impossible exPlain = false ∧
    word_count exKw = 25 ∧ word_count exPlain = 25 ∧ ((5 : ℚ) * 5 = 25) ∧
    (cost_handler { request_id := "r", title := "t", summary := exKw,
                    parameter := .cost, version := 1 } 5).map (fun r => r.score) =
      some 0 ∧
    (cost_handler { request_id := "r", title := "t", summary := exPlain,
                    parameter := .cost, version := 1 } 5).map (fun r => r.score) =
      some 30 ∧
    ((0 : ℚ) ≠ 30 - 40) := by
  have hkw : contains_impossible exKw = true := by decide
  have hpl : contains_impossible exPlain = false := by decide
  refine ⟨hkw, hpl, by decide, by decide, by norm_num, ?_, ?_, by norm_num⟩
  · simp [cost_handler, hkw, quick_score]
    norm_num
  · simp [cost_handler, hpl, quick_score]
    norm_num

/-- Claim C2: when the response for the last outstanding dimension of a
tracked job arrives, `on_subscore` emits exactly one aggregate whose
overall is `Σ score_d * weight_d` over the final received list (the job's
normalized weights), with the breakdown in arrival order and the caller's
correlation token, and deletes the job from the tracker in the same
invocation. -/
theorem C2_full_completion (P : Pending) (st : JobState) (resp : SubscoreResponse)
    (hnd : (P.map Prod.fst).Nodup)
    (h1 : lookupJob P resp.request_id = some st)
    (h2 : st.expected = {resp.parameter}) :
    on_subscore P resp =
      (delJob P resp.request_id,
       [{ request_id := resp.request_id,
          overall := weightedSum st.weights (st.received ++ [resp]),
          breakdown := st.received ++ [resp],
          version := 1,
          corr_id := st.corr_id }]) ∧
    lookupJob (delJob P resp.request_id) resp.request_id = none := by
  constructor
  · unfold on_subscore
    rw [h1]
    dsimp only
    have hp : resp.parameter ∈ st.expected := by
      rw [h2]
      exact Finset.mem_singleton_self _
    rw [if_pos hp]
    have he : ({ st with expected := st.expected.erase resp.parameter,
                         received := st.received ++ [resp] } : JobState).expected = ∅ := by
      simp [h2]
    rw [if_pos he]
  · exact lookupJob_delJob_self hnd

/-- Claim C2, witness: the job `C2st` waiting only on `timing` completes on
the timing response; the aggregate carries the weighted sum over all five
received results and the job is gone from the tracker. -/
theorem C2_witness :
    (C2P.map Prod.fst).Nodup ∧
    lookupJob C2P "job" = some C2st ∧
    C2st.expected = {C2resp.parameter} ∧
    (on_subscore C2P C2resp =
      (delJob C2P "job",
       [{ request_id := "job",
          overall := weightedSum C2st.weights (C2st.received ++ [C2resp]),
          breakdown := C2st.received ++ [C2resp],
          version := 1,
          corr_id := some "c" }]) ∧
     lookupJob (delJob C2P "job") "job" = none) := by
  refine ⟨by decide, rfl, by decide, ?_⟩
  exact C2_full_completion C2P C2st C2resp (by decide) rfl (by decide)

/-- Claim C3: an expired job is swept with a partial aggregate: overall 0
when nothing was received, and the weighted sum renormalized by the total
weight of the received dimensions when that total is nonzero (the zero
total is the denominator-substitution corner treated separately); in both
cases the job is removed from the tracker. -/
theorem C3_timeout_partial (P : Pending) (rid : String) (st : JobState) (now : ℚ)
    (hnd : (P.map Prod.fst).Nodup)
    (h1 : lookupJob P rid = some st)
    (h2 : now - st.created_at > TIMEOUT_S) :
    mkTimeoutAgg rid st ∈ (timeout_sweeper P now).2 ∧
    (st.received = [] → (mkTimeoutAgg rid st).overall = 0) ∧
    (st.received ≠ [] → usedWeight st ≠ 0 →
      (mkTimeoutAgg rid st).overall =
        weightedSum st.weights st.received / usedWeight st) ∧
    lookupJob (timeout_sweeper P now).1 rid = none := by
  have hdef : timeoutOverall st =
      if st.received = [] then 0
      else weightedSum st.weights st.received /
        (if usedWeight st = 0 then 1 else usedWeight st) := rfl
  refine ⟨sweeper_mem h2 h1, ?_, ?_, sweeper_lookup_none h2 hnd h1⟩
  · intro hr
    show timeoutOverall st = 0
    rw [hdef, if_pos hr]
  · intro hr hu
    show timeoutOverall st = weightedSum st.weights st.received / usedWeight st
    rw [hdef, if_neg hr, if_neg hu]

/-- Claim C3, witness: the job `C3st` (only `cost` received, weight 1/5)
swept at time 11 emits `(60 * (1/5)) / (1/5)` and leaves the tracker. -/
theorem C3_witness :
    (C3P.map Prod.fst).Nodup ∧
    lookupJob C3P "j3" = some C3st ∧
    ((11 : ℚ) - C3st.created_at > TIMEOUT_S) ∧
    C3st.received ≠ [] ∧ usedWeight C3st ≠ 0 ∧
    (mkTimeoutAgg "j3" C3st ∈ (timeout_sweeper C3P 11).2 ∧
     (mkTimeoutAgg "j3" C3st).overall =
       weightedSum C3st.weights C3st.received / usedWeight C3st ∧
     lookupJob (timeout_sweeper C3P 11).1 "j3" = none) := by
  have h2 : (11 : ℚ) - C3st.created_at > TIMEOUT_S := by
    norm_num [C3st, TIMEOUT_S]
  have hr : C3st.received ≠ [] := by simp [C3st]
  have hu : usedWeight C3st ≠ 0 := by
    simp [usedWeight, C3st, DEFAULT_WEIGHTS]
  have h := C3_timeout_partial C3P "j3" C3st 11 (by decide) rfl h2
  exact ⟨by decide, rfl, h2, hr, hu, h.1, h.2.2.1 hr hu, h.2.2.2⟩

/-- Claim C9 (amended): the timeout sweep's division is total: when the
received dimensions of a swept job have total normalized weight 0 the code
divides by the substituted 1.0 instead of 0; and when the job's weights
are moreover non-negative (so each received dimension's weight is 0) the
emitted overall is exactly 0.  With negative weights permitted by
`normalize_weights`, a zero total does not force a zero overall (see the
counterexample). -/
theorem C9_denominator_substitution (P : Pending) (rid : String) (st : JobState)
    (now : ℚ)
    (hnd : (P.map Prod.fst).Nodup)
    (h1 : lookupJob P rid = some st)
    (h2 : now - st.created_at > TIMEOUT_S)
    (h3 : st.received ≠ [])
    (h4 : usedWeight st = 0) :
    mkTimeoutAgg rid st ∈ (timeout_sweeper P now).2 ∧
    (mkTimeoutAgg rid st).overall = weightedSum st.weights st.received / 1 ∧
    ((∀ p, 0 ≤ st.weights p) → (mkTimeoutAgg rid st).overall = 0) := by
  have hdef : timeoutOverall st =
      if st.received = [] then 0
      else weightedSum st.weights st.received /
        (if usedWeight st = 0 then 1 else usedWeight st) := rfl
  refine ⟨sweeper_mem h2 h1, ?_, ?_⟩
  · show timeoutOverall st = weightedSum st.weights st.received / 1
    rw [hdef, if_neg h3, if_pos h4]
  · intro hw
    have hall : ∀ x ∈ st.received.map (fun r => st.weights r.parameter), x = 0 :=
      list_sum_eq_zero_of_nonneg
        (by
          intro x hx
          obtain ⟨r, hr, rfl⟩ := List.mem_map.mp hx
          exact hw _)
        h4
    have hws : weightedSum st.weights st.received = 0 := by
      apply List.sum_eq_zero
      intro x hx
      obtain ⟨r, hr, rfl⟩ := List.mem_map.mp hx
      have h0 : st.weights r.parameter = 0 :=
        hall _ (List.mem_map.mpr ⟨r, hr, rfl⟩)
      rw [h0, mul_zero]
    show timeoutOverall st = 0
    rw [hdef, if_neg h3, if_pos h4, hws]
    norm_num

/-- Claim C9, witness: the job `C9st` has non-negative weights (all weight
on `cost`) and received only `ethics`, so the total received weight is 0:
the sweep divides by the substituted 1.0 and emits exactly 0. -/
theorem C9_witness :
    (C9P.map Prod.fst).Nodup ∧
    lookupJob C9P "j" = some C9st ∧
    ((11 : ℚ) - C9st.created_at > TIMEOUT_S) ∧
    C9st.received ≠ [] ∧ usedWeight C9st = 0 ∧
    (mkTimeoutAgg "j" C9st ∈ (timeout_sweeper C9P 11).2 ∧
     (mkTimeoutAgg "j" C9st).overall = weightedSum C9st.weights C9st.received / 1 ∧
     (mkTimeoutAgg "j" C9st).overall = 0) := by
  have h2 : (11 : ℚ) - C9st.created_at > TIMEOUT_S := by
    norm_num [C9st, TIMEOUT_S]
  have h3 : C9st.received ≠ [] := by simp [C9st]
  have h4 : usedWeight C9st = 0 := by
    simp [usedWeight, C9st]
  have hw : ∀ p, 0 ≤ C9st.weights p := by
    intro p
    by_cases hp : p = Param.cost <;> simp [C9st, hp]
  have h := C9_denominator_substitution C9P "j" C9st 11 (by decide) rfl h2 h3 h4
  exact ⟨by decide, rfl, h2, h3, h4, h.1, h.2.1, h.2.2 hw⟩

/-- Claim C9, counterexample: the orchestrator accepts the weights
dictionary `{"cost": -1, "ethics": 1, "market": 1}` (positive sum, so
`normalize_weights` keeps the negative entry).  After `cost` scores 100
and `ethics` scores 0, the tracked job's received dimensions have total
normalized weight 0, yet the sweep at time 11 emits overall -100, not 0:
the claim's "emits exactly 0" fails for swept jobs with zero total
received weight once negative weights are involved. -/
theorem C9_counterexample :
    ((run [] evC9pre).1).map (fun e => usedWeight e.2) = [0] ∧
    ((run [] evC9pre).1).map (fun e => e.2.received.length) = [2] ∧
    ((run [] evC9).2).map (fun a => a.overall) = [-100] ∧
    ((-100 : ℚ) ≠ 0) := by
  refine ⟨?_, ?_, ?_, by norm_num⟩ <;>
    norm_num [evC9, evC9pre, run, step, on_feasibility_request, on_subscore,
      timeout_sweeper, lookupJob, setJob, delJob, normalize_weights, wsum, wget,
      negDict, PARAMS, weightedSum, usedWeight, timeoutOverall, mkTimeoutAgg,
      TIMEOUT_S,
      show pyStrip "t" = "t" from by decide, show pyStrip "s" = "s" from by decide,
      (by decide : ((Finset.univ : Finset Param).erase Param.cost ≠ ∅)),
      (by decide : (((Finset.univ : Finset Param).erase Param.cost).erase Param.ethics ≠ ∅)),
      (by decide : Param.ethics ∈ (Finset.univ : Finset Param).erase Param.cost),
      (by decide : ("t" : String) ≠ ""), (by decide : ("s" : String) ≠ ""),
      List.cons_ne_nil]

/-- Claim C5: a duplicate response — one whose dimension is no longer
`expected` — for a job still tracked with non-empty `expected` leaves the
tracker exactly unchanged and emits nothing (hence the overall eventually
emitted for the job is unchanged, the future evolving from an identical
state); and every job in any tracker reachable by the handlers satisfies
`expected ∪ dimensions(received) = full set` with no dimension received
twice. -/
theorem C5_duplicate_dropped (P : Pending) (st : JobState) (resp : SubscoreResponse)
    (events : List Event)
    (h1 : lookupJob P resp.request_id = some st)
    (h2 : resp.parameter ∉ st.expected)
    (h3 : st.expected ≠ ∅) :
    on_subscore P resp = (P, []) ∧
    (∀ e ∈ (run [] events).1,
      e.2.expected ∪ (receivedParams e.2).toFinset = Finset.univ ∧
      (receivedParams e.2).Nodup) := by
  constructor
  · unfold on_subscore
    rw [h1]
    dsimp only
    rw [if_neg h2, if_neg h3, setJob_of_lookup_some h1]
  · intro e he
    have hwf : pendingWF (run [] events).1 :=
      pendingWF_run (by intro x hx; simp at hx) events
    exact ⟨(hwf e he).1, (hwf e he).2.1⟩

/-- Claim C5, witness: a second `cost` response for `C5st` (which already
received `cost`) is dropped without any state change or emission, and
after the request in `evTrace` every live job satisfies the tiling
invariant. -/
theorem C5_witness :
    lookupJob C5P "j5" = some C5st ∧
    C5resp.parameter ∉ C5st.expected ∧
    C5st.expected ≠ ∅ ∧
    (on_subscore C5P C5resp = (C5P, []) ∧
     (∀ e ∈ (run [] evTrace).1,
       e.2.expected ∪ (receivedParams e.2).toFinset = Finset.univ ∧
       (receivedParams e.2).Nodup)) :=
  ⟨rfl, by decide, by decide,
   C5_duplicate_dropped C5P C5st C5resp evTrace rfl (by decide) (by decide)⟩

/-- Claim C1: starting from an empty tracker, along any sequence of
handler invocations in which a given job id is minted at most once (uuid
freshness) and is not the sentinel "invalid", at most one aggregate is
ever emitted for that id: completion and timeout each delete the id
before emitting can recur, so the two paths are mutually exclusive. -/
theorem C1_at_most_one_aggregate (events : List Event) (rid : String)
    (hrid : rid ≠ "invalid")
    (hfresh : countMints rid events ≤ 1) :
    countAggFor rid (run [] events).2 ≤ 1 := by
  have h := run_count_bound [] events rid hrid
  have h0 : ridCount [] rid = 0 := rfl
  omega

/-- Claim C1, witness: the request/subscore/sweep trace `evTrace` mints
"job" once and yields at most one aggregate for it. -/
theorem C1_witness :
    ("job" : String) ≠ "invalid" ∧ countMints "job" evTrace ≤ 1 ∧
    countAggFor "job" (run [] evTrace).2 ≤ 1 :=
  ⟨by decide, by decide,
   C1_at_most_one_aggregate evTrace "job" (by decide) (by decide)⟩

/-- Claim C8: along any handler sequence from an empty tracker in which
caller-supplied weights are non-negative and every arriving subscore lies
in [0, 100], every emitted aggregate — validation rejection, full
completion or timeout sweep — has overall in [0, 100]. -/
theorem C8_overall_in_range (events : List Event)
    (hok : ∀ e ∈ events, eventOK e) :
    ∀ a ∈ (run [] events).2, 0 ≤ a.overall ∧ a.overall ≤ 100 :=
  run_overall_bounds (by intro x hx; simp at hx) (by intro x hx; simp at hx) hok

/-- Claim C8, witness: the trace `evTrace` (default weights, one in-range
subscore, then an expiring sweep) satisfies the preconditions, so each of
its emitted aggregates is bounded. -/
theorem C8_witness :
    (∀ e ∈ evTrace, eventOK e) ∧
    (∀ a ∈ (run [] evTrace).2, 0 ≤ a.overall ∧ a.overall ≤ 100) := by
  have hok : ∀ e ∈ evTrace, eventOK e := by
    intro e he
    simp only [evTrace, List.mem_cons, List.not_mem_nil, or_false] at he
    rcases he with rfl | rfl | rfl
    · trivial
    · constructor <;> norm_num
    · trivial
  exact ⟨hok, C8_overall_in_range evTrace hok⟩

end Feasibility
